import Mathlib

/-!
Verification of the HackCMU study-partner application core.

The development shallowly embeds two Python modules:

* `src/app/algorithm.py` — time utilities (`time_to_minutes`,
  `is_time_between`), the `RecommendationEngine.get_user_availability`
  status-to-preference mapping, and `get_recent_class_for_user`.
* `src/services.py` — `ScheduleService` (users / schedules /
  user_schedules stores and `remove_schedule`), `StatusService`
  (`get_user_status`, `get_current_status`) and
  `RecommendationService.get_recommendations`.

Python dictionaries are modelled as association lists in insertion
order (first-match lookup; real dictionaries have unique keys, carried
as a hypothesis where a theorem needs it).  Python strings are compared
lexicographically by code point, which we model on `String.data`
(`List Char`).  Python code that can raise an exception is modelled
with `Option` (`none` = the exception propagates).
-/

namespace HackCMU

/-! ## Python-style string primitives -/

/-- Lexicographic strict `<` on character lists, by code point: the
semantics of Python's `str.__lt__`. -/
def lexLt : List Char → List Char → Bool
  | _, [] => false
  | [], _ :: _ => true
  | a :: l, b :: m => if a < b then true else if a = b then lexLt l m else false

/-- Lexicographic `≤` on character lists, by code point: the semantics
of Python's `str.__le__`. -/
def lexLe : List Char → List Char → Bool
  | [], _ => true
  | _ :: _, [] => false
  | a :: l, b :: m => if a < b then true else if a = b then lexLe l m else false

/-- Python `s <= t` on strings. -/
def pyLe (s t : String) : Bool := lexLe s.data t.data

/-- Python `s < t` on strings. -/
def pyLt (s t : String) : Bool := lexLt s.data t.data

/-- Python `str.split(':')`: splits a character list at every `':'`,
returning one (possibly empty) part more than the number of colons. -/
def splitColon : List Char → List (List Char)
  | [] => [[]]
  | c :: rest =>
    if c = ':' then [] :: splitColon rest
    else
      match splitColon rest with
      | [] => [[c]]
      | p :: ps => (c :: p) :: ps

/-- Decimal value of a nonempty all-digit character list, `none`
otherwise. -/
def digitsVal : List Char → Option Nat
  | [] => none
  | l =>
    if l.all (·.isDigit) then
      some (l.foldl (fun a c => 10 * a + (c.toNat - 48)) 0)
    else none

/-- ASCII whitespace, as stripped by Python's `int()`. -/
def isPySpace (c : Char) : Bool :=
  c = ' ' || c = '\t' || c = '\n' || c = '\x0d' || c = '\x0b' || c = '\x0c'

/-- Strip leading and trailing whitespace. -/
def stripWs (l : List Char) : List Char :=
  ((l.dropWhile isPySpace).reverse.dropWhile isPySpace).reverse

/-- Python `int(s)` on a character list: optional surrounding
whitespace, an optional sign, then decimal digits; `none` models the
`ValueError` raised on anything else.  (Python additionally accepts
underscore digit grouping and non-ASCII digits; such inputs are not
modelled.) -/
def parseInt : List Char → Option Int
  | l =>
    match stripWs l with
    | '+' :: rest => (digitsVal rest).map (fun n => (n : Int))
    | '-' :: rest => (digitsVal rest).map (fun n => -(n : Int))
    | rest => (digitsVal rest).map (fun n => (n : Int))

/-! ## `algorithm.py`: time utilities -/

/-- `time_to_minutes` from `src/app/algorithm.py`: converts `"HH:MM"`
to minutes since midnight, returning 0 on any malformed input (missing
colon, wrong field count, unparsable fields, out-of-range hour or
minute).  Total by construction — the Python `try/except` never lets
an exception escape. -/
def time_to_minutes (time_str : String) : Int :=
  if ':' ∈ time_str.data then
    match splitColon time_str.data with
    | [p0, p1] =>
      match parseInt p0, parseInt p1 with
      | some hours, some minutes =>
        if 0 ≤ hours ∧ hours ≤ 23 ∧ 0 ≤ minutes ∧ minutes ≤ 59 then
          hours * 60 + minutes
        else 0
      | _, _ => 0
    | _ => 0
  else 0

/-- `is_time_between` from `src/app/algorithm.py`: closed-interval
membership in minute terms, wrapping past midnight when
`end < start`. -/
def is_time_between (current start «end» : String) : Bool :=
  let current_min := time_to_minutes current
  let start_min := time_to_minutes start
  let end_min := time_to_minutes «end»
  if end_min < start_min then
    decide (start_min ≤ current_min) || decide (current_min ≤ end_min)
  else
    decide (start_min ≤ current_min) && decide (current_min ≤ end_min)

/-! ## `algorithm.py`: data model

`algorithm.py` works on JSON dictionaries loaded from disk: `users`,
`schedules` (per user a record with a `schedule` list of class-info
dictionaries) and `statuses` (per user a record with a `manualStatus`
field).  Dictionary fields that the code reads with `.get` are
modelled as `Option`s. -/

/-- One entry of a user's `schedule` list in `schedules.json`; every
field is read via `.get` in the Python code, hence optional. -/
structure ClassInfo where
  courseCode : Option String := none
  courseName : Option String := none
  day : Option String := none
  startTime : Option String := none
  endTime : Option String := none
  location : Option String := none
deriving DecidableEq, Repr

/-- A user's record in `schedules.json`. -/
structure ScheduleRec where
  schedule : Option (List ClassInfo) := none
deriving DecidableEq, Repr

/-- A user's record in `status.json`. -/
structure StatusRec where
  manualStatus : Option String := none
deriving DecidableEq, Repr

/-- The in-memory state of `RecommendationEngine` (`self.users`,
`self.schedules`, `self.statuses`), dictionaries keyed by user id. -/
structure Engine where
  users : List (String × String) := []
  schedules : List (String × ScheduleRec) := []
  statuses : List (String × StatusRec) := []
deriving DecidableEq, Repr

/-- First-match association-list lookup: Python dictionary access
(keys of a real dictionary are unique). -/
def alookup {α : Type} : List (String × α) → String → Option α
  | [], _ => none
  | p :: ps, k => if p.1 = k then some p.2 else alookup ps k

/-- Result of `RecommendationEngine.get_user_availability`. -/
structure Availability where
  status : String
  social_preference : String
  study_preference : String
deriving DecidableEq, Repr

/-- `RecommendationEngine.get_user_availability` from
`src/app/algorithm.py`: maps the user's manual status string to social
and study preferences; the default record (status `"unknown"`, both
preferences `"neutral"`) is returned when the user has no status
record, and an absent `manualStatus` field defaults to `"free"`. -/
def get_user_availability (eng : Engine) (user_id : String) : Availability :=
  match alookup eng.statuses user_id with
  | none => ⟨"unknown", "neutral", "neutral"⟩
  | some rec =>
    let manual_status := rec.manualStatus.getD "free"
    if manual_status = "social" ∨ manual_status = "want to hang out" then
      ⟨manual_status, "high", "low"⟩
    else if manual_status = "tired" ∨ manual_status = "busy" then
      ⟨manual_status, "low", "low"⟩
    else if manual_status = "studying" ∨ manual_status = "help" then
      ⟨manual_status, "low", "high"⟩
    else
      ⟨manual_status, "neutral", "neutral"⟩

/-- A reference instant as `algorithm.py` sees it:
`now.strftime('%A').lower()` and `now.strftime('%H:%M')`. -/
structure AInstant where
  day : String
  hhmm : String
deriving DecidableEq, Repr

/-- Result record of `get_recent_class_for_user`. -/
structure RecentClass where
  courseCode : String
  courseName : String
  endedMinutesAgo : Int
deriving DecidableEq, Repr

/-- One iteration of the `get_recent_class_for_user` loop: the
accumulator is `(min_gap, recent_class)`. -/
def recentStep (now : AInstant) (current_minutes : Int)
    (acc : Int × Option RecentClass) (class_info : ClassInfo) :
    Int × Option RecentClass :=
  if class_info.day = some now.day then
    let end_time := class_info.endTime.getD ""
    if end_time ≠ "" then
      let end_minutes := time_to_minutes end_time
      let gap := current_minutes - end_minutes
      if 0 < gap ∧ gap < acc.1 then
        (gap, some ⟨class_info.courseCode.getD "Unknown",
                    class_info.courseName.getD "", gap⟩)
      else acc
    else acc
  else acc

/-- `get_recent_class_for_user` from `src/app/algorithm.py`: the class
on the reference day that ended most recently, if it ended less than
60 minutes ago. -/
def get_recent_class_for_user (eng : Engine) (user_id : String)
    (now : AInstant) : Option RecentClass :=
  match alookup eng.schedules user_id with
  | none => none
  | some rec =>
    let current_minutes := time_to_minutes now.hhmm
    let user_schedule := rec.schedule.getD []
    (user_schedule.foldl (recentStep now current_minutes) (60, none)).2

/-- The schedule entries scanned by `get_recent_class_for_user` for a
given user (empty when the user has no schedule record). -/
def entriesOf (eng : Engine) (user_id : String) : List ClassInfo :=
  match alookup eng.schedules user_id with
  | none => []
  | some rec => rec.schedule.getD []

/-! ## `models.py` / `services.py`: data model -/

/-- `StatusType` from `src/models.py`. -/
inductive StatusType
  | studying | free | help | busy | tired | social
deriving DecidableEq, Repr

/-- `StatusType.value`: the string value of each enum member. -/
def StatusType.value : StatusType → String
  | .studying => "studying"
  | .free => "free"
  | .help => "help"
  | .busy => "busy"
  | .tired => "tired"
  | .social => "social"

/-- `DayType` from `src/models.py`. -/
inductive DayType
  | monday | tuesday | wednesday | thursday | friday | saturday | sunday
deriving DecidableEq, Repr

/-- `User` from `src/models.py`. -/
structure User where
  id : String
  username : String
  major : String
  avatar : Option String := none
deriving DecidableEq, Repr

/-- `Schedule` from `src/models.py` (`start_time` / `end_time` are
`"HH:MM"` strings). -/
structure Schedule where
  id : String
  user_id : String
  course_code : String
  course_name : String
  day : DayType
  start_time : String
  end_time : String
  location : Option String := none
deriving DecidableEq, Repr

/-- `UserStatus` from `src/models.py` (`last_updated` is a `datetime`,
modelled as its ISO string; it is never read by the functions under
verification). -/
structure UserStatus where
  id : String
  user_id : String
  manual_status : StatusType
  last_updated : String
deriving DecidableEq, Repr

/-- `StudyPartner` from `src/models.py`. -/
structure StudyPartner where
  id : String
  username : String
  major : String
  avatar : Option String
  score : Nat
  shared_classes : List String
  current_class : Option String
  next_class : Option String
  reason : String
deriving DecidableEq, Repr

/-- `StatusBoardUser` from `src/models.py`. -/
structure StatusBoardUser where
  id : String
  username : String
  major : String
  avatar : Option String
  manual_status : String
  current_class : Option String := none
  next_class : Option String := none
deriving DecidableEq, Repr

/-- `CurrentStatusResponse` from `src/models.py`. -/
structure CurrentStatusResponse where
  now : String
  in_class : List StatusBoardUser
  free : List StatusBoardUser
deriving DecidableEq, Repr

/-- The stores of `ScheduleService` (`self.users`, `self.schedules`,
`self.user_schedules`), dictionaries in insertion order.
`user_schedules` is a `defaultdict(list)`. -/
structure ScheduleState where
  users : List (String × User) := []
  schedules : List (String × Schedule) := []
  user_schedules : List (String × List String) := []
deriving DecidableEq, Repr

/-- The store of `StatusService` (`self.user_statuses`). -/
structure StatusState where
  user_statuses : List (String × UserStatus) := []
deriving DecidableEq, Repr

/-- A reference instant as `services.py` samples it from
`datetime.now()`: `DayType(now.strftime('%A').lower())`,
`now.strftime('%H:%M')` and `now.isoformat()`. -/
structure Instant where
  day : DayType
  hhmm : String
  iso : String
deriving DecidableEq, Repr

/-! ## `services.py`: `ScheduleService` -/

/-- `ScheduleService.get_user_schedules`: resolve a user's schedule-id
list against the schedule store, skipping dangling ids. -/
def get_user_schedules (st : ScheduleState) (user_id : String) : List Schedule :=
  ((alookup st.user_schedules user_id).getD []).filterMap
    (fun sid => alookup st.schedules sid)

/-- Assignment `d[k] = v` on a dictionary: overwrite the value when
the key is present, append the pair otherwise. -/
def assocSet {α : Type} (l : List (String × α)) (k : String) (v : α) :
    List (String × α) :=
  if (alookup l k).isSome then
    l.map (fun p => if p.1 = k then (k, v) else p)
  else l ++ [(k, v)]

/-- `ScheduleService.remove_schedule`: returns the state after the
call together with the message of the `ValueError` it raised, if any.
The Python method mutates nothing before raising, so on error the
state is returned unchanged. -/
def remove_schedule (st : ScheduleState) (schedule_id user_id : String) :
    ScheduleState × Option String :=
  match alookup st.schedules schedule_id with
  | some schedule =>
    if schedule.user_id = user_id then
      ({ st with
         schedules := st.schedules.filter (fun p => p.1 ≠ schedule_id),
         user_schedules := assocSet st.user_schedules user_id
           (((alookup st.user_schedules user_id).getD []).filter
             (fun sid => sid ≠ schedule_id)) },
       none)
    else (st, some "Not authorized to remove this schedule")
  | none => (st, some "Schedule not found")

/-! ## `services.py`: `StatusService` -/

/-- `StatusService.get_user_status`: the user's manual status, an
absent record counting as `free`.  (The Python return annotation is
`Optional[StatusType]`, but the function always returns a
`StatusType`.) -/
def get_user_status (st : StatusState) (user_id : String) : StatusType :=
  match alookup st.user_statuses user_id with
  | some status => status.manual_status
  | none => .free

/-- Python truthiness of the `current_class` variable in
`services.py`: `None` and the empty string are falsy. -/
def truthy : Option String → Bool
  | none => false
  | some s => s ≠ ""

/-- Zero-padding to width 2, Python's `f"{minute:02d}"`. -/
def pad2 (m : Int) : String :=
  if 0 ≤ m ∧ m < 10 then "0" ++ toString m else toString m

/-- `StatusService._format_time`: `"HH:MM"` to 12-hour display format.
`none` models the `ValueError` Python raises when the argument does
not split into exactly two `int()`-parsable fields. -/
def format_time (time_str : String) : Option String :=
  match splitColon time_str.data with
  | [p0, p1] =>
    match parseInt p0, parseInt p1 with
    | some hour, some minute =>
      let ampm := if hour < 12 then "AM" else "PM"
      let display_hour := if hour ≤ 12 then hour else hour - 12
      let display_hour := if display_hour = 0 then 12 else display_hour
      some (toString display_hour ++ ":" ++ pad2 minute ++ " " ++ ampm)
    | _, _ => none
  | _ => none

/-- The current-class scan shared by `get_current_status` (lines
97–101) and `get_recommendations` (lines 198–202) of
`src/services.py`: the first schedule entry on the reference day with
`start_time <= current_time <= end_time` under Python's lexicographic
string comparison. -/
def current_class_of (schedules : List Schedule) (inst : Instant) :
    Option String :=
  (schedules.find? (fun s =>
    decide (s.day = inst.day) && pyLe s.start_time inst.hhmm
      && pyLe inst.hhmm s.end_time)).map
    (fun s => s.course_code)

/-- `min(future_schedules, key=lambda x: x.start_time)`: Python `min`
keeps the first element among ties and replaces only on a strictly
smaller key. -/
def minByStart (l : List Schedule) : Option Schedule :=
  l.foldl (fun acc s =>
    match acc with
    | none => some s
    | some c => if pyLt s.start_time c.start_time then some s else acc) none

/-- The next-class scan of `src/services.py` (lines 104–108 and
205–209): the earliest entry on the reference day starting strictly
after the reference time, rendered as `"<code> @ <12-hour time>"`.
The outer `Option` models the exception `_format_time` may raise; the
inner one is the `next_class` value (`none` = no more classes
today). -/
def next_class_of (schedules : List Schedule) (inst : Instant) :
    Option (Option String) :=
  let today_schedules := schedules.filter (fun s => decide (s.day = inst.day))
  let future_schedules := today_schedules.filter
    (fun s => pyLt inst.hhmm s.start_time)
  match minByStart future_schedules with
  | none => some none
  | some next_schedule =>
    (format_time next_schedule.start_time).map
      (fun t => some (next_schedule.course_code ++ " @ " ++ t))

/-- The `StatusBoardUser` built for one user inside the
`get_current_status` loop; `none` when `_format_time` raises. -/
def mkBoardUser (sch : ScheduleState) (sts : StatusState) (inst : Instant)
    (ku : String × User) : Option StatusBoardUser :=
  let schedules := get_user_schedules sch ku.1
  let user_status := get_user_status sts ku.1
  let current_class := current_class_of schedules inst
  (next_class_of schedules inst).map (fun next_class =>
    { id := ku.2.id
      username := ku.2.username
      major := ku.2.major
      avatar := ku.2.avatar
      manual_status := user_status.value
      current_class := current_class
      next_class := next_class })

/-- The user loop of `get_current_status`: build each board user and
append it to `in_class` when `current_class` is truthy, to `free`
otherwise. -/
def board_split (sch : ScheduleState) (sts : StatusState) (inst : Instant) :
    List (String × User) → Option (List StatusBoardUser × List StatusBoardUser)
  | [] => some ([], [])
  | ku :: rest =>
    match mkBoardUser sch sts inst ku with
    | none => none
    | some su =>
      match board_split sch sts inst rest with
      | none => none
      | some (ic, fr) =>
        if truthy (current_class_of (get_user_schedules sch ku.1) inst) then
          some (su :: ic, fr)
        else
          some (ic, su :: fr)

/-- `StatusService.get_current_status` from `src/services.py`, with
the reference instant injected in place of `datetime.now()`. -/
def get_current_status (sch : ScheduleState) (sts : StatusState)
    (inst : Instant) : Option CurrentStatusResponse :=
  (board_split sch sts inst sch.users).map (fun p =>
    { now := inst.iso, in_class := p.1, free := p.2 })

/-! ## `services.py`: `RecommendationService` -/

/-- The distinct course codes of a user's schedule entries, in first
occurrence order: `set(s.course_code for s in schedules)`. -/
def coursesOf (sch : ScheduleState) (user_id : String) : List String :=
  (get_user_schedules sch user_id).map (fun s => s.course_code)

/-- `list(user_courses.intersection(other_courses))`: the distinct
shared course codes.  Python's set iteration order is unspecified; the
embedding fixes first-occurrence order, which affects only the order
of the resulting list, not its members or length. -/
def sharedClasses (sch : ScheduleState) (user_id other_id : String) :
    List String :=
  (coursesOf sch user_id).dedup.filter (fun c => c ∈ coursesOf sch other_id)

/-- The candidate record built for one other user inside the
`get_recommendations` loop (lines 169–223 of `src/services.py`);
`none` when `_format_time` raises. -/
def mk_partner (sch : ScheduleState) (sts : StatusState) (inst : Instant)
    (user_id : String) (user : User) (ku : String × User) :
    Option StudyPartner :=
  let other_schedules := get_user_schedules sch ku.1
  let shared_classes := sharedClasses sch user_id ku.1
  let other_status := get_user_status sts ku.1
  let score := shared_classes.length * 20
    + (if user.major = ku.2.major then 15 else 0)
    + (if other_status = .studying ∨ other_status = .help
          ∨ other_status = .free then 10 else 0)
  let reason := "Shares " ++ toString shared_classes.length ++ " class"
    ++ (if shared_classes.length > 1 then "es" else "") ++ " with you"
    ++ (if user.major = ku.2.major then "; Same major (" ++ user.major ++ ")"
        else "")
    ++ (if other_status = .help then "; Available to help"
        else if other_status = .studying then "; Currently studying" else "")
  let current_class := current_class_of other_schedules inst
  let next_classO : Option (Option String) :=
    if truthy current_class then some none
    else next_class_of other_schedules inst
  next_classO.map (fun next_class =>
    { id := ku.2.id
      username := ku.2.username
      major := ku.2.major
      avatar := ku.2.avatar
      score := score
      shared_classes := shared_classes
      current_class := current_class
      next_class := next_class
      reason := reason })

/-- The candidate loop of `get_recommendations`: every other user with
a nonempty shared-course set, in population iteration order. -/
def rec_candidates (sch : ScheduleState) (sts : StatusState) (inst : Instant)
    (user_id : String) (user : User) :
    List (String × User) → Option (List StudyPartner)
  | [] => some []
  | ku :: rest =>
    if ku.1 = user_id then rec_candidates sch sts inst user_id user rest
    else if sharedClasses sch user_id ku.1 = [] then
      rec_candidates sch sts inst user_id user rest
    else
      match mk_partner sch sts inst user_id user ku with
      | none => none
      | some p =>
        match rec_candidates sch sts inst user_id user rest with
        | none => none
        | some ps => some (p :: ps)

/-- Stable insertion into a score-descending list: the inserted
element goes before the first element whose score is `≤` its own, so
among equal scores the earlier-iterated element stays first.  This is
the sorting semantics of Python's stable
`list.sort(key=lambda x: x.score, reverse=True)`. -/
def insertByScore (x : StudyPartner) : List StudyPartner → List StudyPartner
  | [] => [x]
  | y :: ys => if y.score ≤ x.score then x :: y :: ys else y :: insertByScore x ys

/-- Stable sort by descending score (Python
`list.sort(key=..., reverse=True)`; all stable sorts by the same key
agree, so insertion sort is a faithful model of Timsort here). -/
def sortByScoreDesc : List StudyPartner → List StudyPartner
  | [] => []
  | x :: xs => insertByScore x (sortByScoreDesc xs)

/-- `RecommendationService.get_recommendations` from
`src/services.py`, reference instant injected: score every other user
sharing a course, sort by descending score and keep the top 5; the
empty list when the requesting user does not exist. -/
def get_recommendations (sch : ScheduleState) (sts : StatusState)
    (inst : Instant) (user_id : String) : Option (List StudyPartner) :=
  match alookup sch.users user_id with
  | none => some []
  | some user =>
    (rec_candidates sch sts inst user_id user sch.users).map
      (fun recommendations => (sortByScoreDesc recommendations).take 5)

end HackCMU


namespace HackCMU

/-- The character for a single decimal digit. -/
def digitChar (d : Nat) : Char := Char.ofNat (48 + d)

/-- The canonical zero-padded `"HH:MM"` rendering of an hour/minute
pair: exactly the well-formed time strings stored in `Schedule`
records. -/
def fmtTime (h m : Nat) : String :=
  ⟨[digitChar (h / 10), digitChar (h % 10), ':',
    digitChar (m / 10), digitChar (m % 10)]⟩

/-- A user counts as "in class" for the status board: some schedule
entry of theirs lies on the reference day and its
`[start_time, end_time]` interval contains the reference time under
Python's lexicographic string comparison. -/
def inClassNow (sch : ScheduleState) (inst : Instant) (user_id : String) : Prop :=
  ∃ s ∈ get_user_schedules sch user_id,
    s.day = inst.day ∧ pyLe s.start_time inst.hhmm = true ∧
      pyLe inst.hhmm s.end_time = true

instance (sch : ScheduleState) (inst : Instant) (uid : String) :
    Decidable (inClassNow sch inst uid) := by
  unfold inClassNow
  infer_instance

/-! ## Concrete demo states

Small concrete populations used to demonstrate that the theorems below
are not vacuous.  They mirror the sample data of
`algorithm.py::create_sample_data` and the spec's end-to-end scenario:
Alice and Bob share two courses and have the same major. -/

/-- Demo user Alice. -/
def demoAlice : User := { id := "alice", username := "Alice Chen", major := "CS" }

/-- Demo user Bob. -/
def demoBob : User := { id := "bob", username := "Bob Smith", major := "CS" }

/-- Alice's Monday class. -/
def demoS1 : Schedule :=
  { id := "s1", user_id := "alice", course_code := "CS 15-122",
    course_name := "Imperative Computation", day := .monday,
    start_time := "09:00", end_time := "10:20" }

/-- Alice's Tuesday class. -/
def demoS2 : Schedule :=
  { id := "s2", user_id := "alice", course_code := "MATH 21-127",
    course_name := "Concepts of Mathematics", day := .tuesday,
    start_time := "11:30", end_time := "12:50" }

/-- Bob's Monday class. -/
def demoS3 : Schedule :=
  { id := "s3", user_id := "bob", course_code := "CS 15-122",
    course_name := "Imperative Computation", day := .monday,
    start_time := "09:00", end_time := "10:20" }

/-- Bob's Tuesday class. -/
def demoS4 : Schedule :=
  { id := "s4", user_id := "bob", course_code := "MATH 21-127",
    course_name := "Concepts of Mathematics", day := .tuesday,
    start_time := "11:30", end_time := "12:50" }

/-- A two-user `ScheduleService` state. -/
def demoSched : ScheduleState :=
  { users := [("alice", demoAlice), ("bob", demoBob)],
    schedules := [("s1", demoS1), ("s2", demoS2), ("s3", demoS3), ("s4", demoS4)],
    user_schedules := [("alice", ["s1", "s2"]), ("bob", ["s3", "s4"])] }

/-- An empty `StatusService` state (every status defaults to `free`). -/
def demoStatus : StatusState := {}

/-- Reference instant: a Monday at 09:30. -/
def demoInstant : Instant :=
  { day := .monday, hhmm := "09:30", iso := "2025-01-13T09:30:00" }

/-- The gap, in minutes, between the reference time and a class-info
entry's end time (as `get_recent_class_for_user` computes it, with an
absent end time read as the empty string). -/
def recentGap (now : AInstant) (ci : ClassInfo) : Int :=
  time_to_minutes now.hhmm - time_to_minutes (ci.endTime.getD "")

/-- A schedule entry qualifies for `get_recent_class_for_user`: it is
on the reference day, has a nonempty end time, and its end lies
strictly less than 60 minutes before the reference time. -/
def recentlyEnded (now : AInstant) (ci : ClassInfo) : Prop :=
  ci.day = some now.day ∧ ci.endTime.getD "" ≠ "" ∧
    0 < recentGap now ci ∧ recentGap now ci < 60

/-- The candidate record that `get_recommendations` builds for Bob
when Alice asks for recommendations in the demo state at
`demoInstant`. -/
def demoPartnerBob : StudyPartner :=
  { id := "bob", username := "Bob Smith", major := "CS", avatar := none,
    score := 65,
    shared_classes := ["CS 15-122", "MATH 21-127"],
    current_class := some "CS 15-122", next_class := none,
    reason := "Shares 2 classes with you; Same major (CS)" }

/-- The status-board response produced for the demo state at
`demoInstant` (both users are in CS 15-122 at Monday 09:30). -/
def demoBoard : CurrentStatusResponse :=
  { now := "2025-01-13T09:30:00",
    in_class :=
      [⟨"alice", "Alice Chen", "CS", none, "free", some "CS 15-122", none⟩,
       ⟨"bob", "Bob Smith", "CS", none, "free", some "CS 15-122", none⟩],
    free := [] }

/-- An engine whose only user has the unrecognized manual status
`"bored"`. -/
def engineBored : Engine :=
  { statuses := [("u7", { manualStatus := some "bored" })] }

/-- An engine with one user whose Monday classes end at 10:20 and
10:00. -/
def engineRecent : Engine :=
  { schedules := [("u1", { schedule := some [
      { courseCode := some "CS 15-122", day := some "monday",
        startTime := some "09:00", endTime := some "10:20" },
      { courseCode := some "MATH 21-127", day := some "monday",
        startTime := some "07:00", endTime := some "10:00" }] })] }

end HackCMU

namespace HackCMU

/-! ## Association-list lemmas -/

theorem alookup_filter {α : Type} (l : List (String × α)) (k k' : String) :
    alookup (l.filter (fun p => p.1 ≠ k)) k' =
      if k' = k then none else alookup l k' := by
  induction l with
  | nil => simp [alookup]
  | cons p ps ih =>
    by_cases hk : k' = k
    · subst hk
      by_cases hp : p.1 = k' <;> simp_all [List.filter_cons, alookup]
    · have h2 : k ≠ k' := fun e => hk e.symm
      by_cases hp : p.1 = k <;> simp_all [List.filter_cons, alookup]

theorem alookup_append {α : Type} (l m : List (String × α)) (k : String) :
    alookup (l ++ m) k =
      match alookup l k with
      | some v => some v
      | none => alookup m k := by
  induction l with
  | nil => simp [alookup]
  | cons p ps ih =>
    by_cases h : p.1 = k <;> simp [alookup, h, ih]

theorem alookup_overwrite {α : Type} (l : List (String × α)) (k k' : String)
    (v : α) :
    alookup (l.map (fun p => if p.1 = k then (k, v) else p)) k' =
      if k' = k then (alookup l k).map (fun _ => v) else alookup l k' := by
  induction l with
  | nil => simp [alookup]
  | cons p ps ih =>
    by_cases hk : k' = k
    · subst hk
      by_cases hp : p.1 = k' <;> simp_all [alookup]
    · have h2 : k ≠ k' := fun e => hk e.symm
      by_cases hp : p.1 = k
      · simp_all [alookup]
      · by_cases hpk : p.1 = k' <;> simp_all [alookup]

theorem alookup_assocSet {α : Type} (l : List (String × α)) (k k' : String)
    (v : α) :
    alookup (assocSet l k v) k' = if k' = k then some v else alookup l k' := by
  unfold assocSet
  by_cases hs : (alookup l k).isSome
  · rw [if_pos hs, alookup_overwrite]
    by_cases hk : k' = k
    · subst hk
      obtain ⟨w, hw⟩ := Option.isSome_iff_exists.mp hs
      simp [hw]
    · simp [hk]
  · rw [if_neg hs, alookup_append]
    have hn : alookup l k = none := Option.not_isSome_iff_eq_none.mp hs
    by_cases hk : k' = k
    · subst hk
      simp [hn, alookup]
    · have h2 : ¬k = k' := fun e => hk e.symm
      cases hc : alookup l k' <;> simp [alookup, hk, hc, h2]

end HackCMU

namespace HackCMU

/-! ## C4: `is_time_between` -/

/-- C4. For all time strings `current`, `start`, `end`: when `end`
is not earlier than `start` in minute terms, `is_time_between` holds
iff `start ≤ current ≤ end` in minutes (closed interval); when `end`
is strictly earlier than `start`, it holds iff `current ≥ start` or
`current ≤ end` (overnight wrap); in particular
`is_time_between "10:00" "09:00" "11:00"` is true,
`is_time_between "08:00" "09:00" "11:00"` is false, and
`is_time_between "23:30" "22:00" "01:00"` is true. -/
theorem is_time_between_spec (current start «end» : String) :
    (time_to_minutes start ≤ time_to_minutes «end» →
      (is_time_between current start «end» = true ↔
        time_to_minutes start ≤ time_to_minutes current ∧
          time_to_minutes current ≤ time_to_minutes «end»)) ∧
    (time_to_minutes «end» < time_to_minutes start →
      (is_time_between current start «end» = true ↔
        time_to_minutes start ≤ time_to_minutes current ∨
          time_to_minutes current ≤ time_to_minutes «end»)) ∧
    is_time_between "10:00" "09:00" "11:00" = true ∧
    is_time_between "08:00" "09:00" "11:00" = false ∧
    is_time_between "23:30" "22:00" "01:00" = true := by
  refine ⟨fun h => ?_, fun h => ?_, by decide, by decide, by decide⟩
  · simp only [is_time_between]
    rw [if_neg (not_lt.mpr h)]
    simp
  · simp only [is_time_between]
    rw [if_pos h]
    simp

/-- Witness for `is_time_between_spec`: both hypotheses are satisfiable
at the spec's own examples. -/
theorem is_time_between_spec_witness :
    (time_to_minutes "09:00" ≤ time_to_minutes "11:00" ∧
      (is_time_between "10:00" "09:00" "11:00" = true ↔
        time_to_minutes "09:00" ≤ time_to_minutes "10:00" ∧
          time_to_minutes "10:00" ≤ time_to_minutes "11:00")) ∧
    (time_to_minutes "01:00" < time_to_minutes "22:00" ∧
      (is_time_between "23:30" "22:00" "01:00" = true ↔
        time_to_minutes "22:00" ≤ time_to_minutes "23:30" ∨
          time_to_minutes "23:30" ≤ time_to_minutes "01:00")) :=
  ⟨⟨by decide, (is_time_between_spec "10:00" "09:00" "11:00").1 (by decide)⟩,
   ⟨by decide, (is_time_between_spec "23:30" "22:00" "01:00").2.1 (by decide)⟩⟩

/-! ## C8: `get_user_availability` -/

/-- C8 counterexample. The claim predicts that any status outside
the recognized enumeration is reported as `"unknown"`; but for a user
whose stored manual status is the unrecognized string `"bored"`, the
code reports the raw string `"bored"` (the preferences are neutral as
claimed). -/
theorem get_user_availability_counterexample :
    get_user_availability engineBored "u7" =
      { status := "bored", social_preference := "neutral",
        study_preference := "neutral" } ∧
    ("bored" : String) ≠ "unknown" :=
  ⟨by decide, by decide⟩

/-- C8 (amended). The status-to-preference mapping yields
(social=high, study=low) for status in {social, "want to hang out"},
(low, low) for {tired, busy}, (social=low, study=high) for
{studying, help}; when the user has no status record at all the
result is status `"unknown"` with neutral preferences; for any other
manual status (including `"free"` and unrecognized strings, and with
an absent `manualStatus` field defaulting to `"free"`) the
preferences are neutral and the *raw* status string is reported. -/
theorem get_user_availability_spec (eng : Engine) (uid : String) :
    (alookup eng.statuses uid = none →
      get_user_availability eng uid =
        { status := "unknown", social_preference := "neutral",
          study_preference := "neutral" }) ∧
    (∀ rec ms, alookup eng.statuses uid = some rec →
      rec.manualStatus.getD "free" = ms →
      (get_user_availability eng uid).status = ms ∧
      ((ms = "social" ∨ ms = "want to hang out") →
        get_user_availability eng uid = ⟨ms, "high", "low"⟩) ∧
      ((ms = "tired" ∨ ms = "busy") →
        get_user_availability eng uid = ⟨ms, "low", "low"⟩) ∧
      ((ms = "studying" ∨ ms = "help") →
        get_user_availability eng uid = ⟨ms, "low", "high"⟩) ∧
      (ms ∉ (["social", "want to hang out", "tired", "busy", "studying",
              "help"] : List String) →
        get_user_availability eng uid = ⟨ms, "neutral", "neutral"⟩)) := by
  constructor
  · intro h
    simp [get_user_availability, h]
  · intro rec ms hrec hms
    subst hms
    simp only [get_user_availability, hrec]
    split_ifs with h1 h2 h3 <;>
      refine ⟨rfl, fun hin => ?_, fun hin => ?_, fun hin => ?_, fun hin => ?_⟩ <;>
      first
        | rfl
        | (rcases hin with h | h <;> simp_all)
        | (rcases h1 with h | h <;> simp_all)
        | (rcases h2 with h | h <;> simp_all)
        | (rcases h3 with h | h <;> simp_all)

/-- Witness for `get_user_availability_spec`. -/
theorem get_user_availability_spec_witness :
    get_user_availability engineBored "zz" =
      { status := "unknown", social_preference := "neutral",
        study_preference := "neutral" } ∧
    get_user_availability engineBored "u7" =
      { status := "bored", social_preference := "neutral",
        study_preference := "neutral" } :=
  ⟨(get_user_availability_spec engineBored "zz").1 (by decide),
   ((get_user_availability_spec engineBored "u7").2
     { manualStatus := some "bored" } "bored" (by decide) (by decide)).2.2.2.2
     (by decide)⟩

/-! ## C7: `remove_schedule` -/

/-- C7. Deleting a schedule entry fails with the authorization
error when the requester does not own the entry and with the
not-found error when the schedule id is absent; in both failure cases
every store is returned unchanged; on success only the targeted entry
is removed: the user store is untouched, the targeted id disappears
from the schedule store, every other schedule id resolves as before,
the requester's schedule-id list loses exactly that id, and every
other user's schedule-id list resolves as before. -/
theorem remove_schedule_spec (st : ScheduleState) (sid uid : String) :
    (alookup st.schedules sid = none →
      remove_schedule st sid uid = (st, some "Schedule not found")) ∧
    (∀ sch, alookup st.schedules sid = some sch → sch.user_id ≠ uid →
      remove_schedule st sid uid =
        (st, some "Not authorized to remove this schedule")) ∧
    (∀ sch, alookup st.schedules sid = some sch → sch.user_id = uid →
      (remove_schedule st sid uid).2 = none ∧
      (remove_schedule st sid uid).1.users = st.users ∧
      alookup (remove_schedule st sid uid).1.schedules sid = none ∧
      (∀ sid', sid' ≠ sid →
        alookup (remove_schedule st sid uid).1.schedules sid' =
          alookup st.schedules sid') ∧
      alookup (remove_schedule st sid uid).1.user_schedules uid =
        some (((alookup st.user_schedules uid).getD []).filter
          (fun s => s ≠ sid)) ∧
      (∀ uid', uid' ≠ uid →
        alookup (remove_schedule st sid uid).1.user_schedules uid' =
          alookup st.user_schedules uid')) := by
  refine ⟨fun h => ?_, fun sch h hne => ?_, fun sch h he => ?_⟩
  · simp [remove_schedule, h]
  · simp [remove_schedule, h, hne]
  · have hr : remove_schedule st sid uid =
        ({ users := st.users,
           schedules := st.schedules.filter (fun p => p.1 ≠ sid),
           user_schedules := assocSet st.user_schedules uid
             (((alookup st.user_schedules uid).getD []).filter
               (fun s => s ≠ sid)) }, none) := by
      simp [remove_schedule, h, he]
    refine ⟨by rw [hr], by rw [hr], ?_, ?_, ?_, ?_⟩
    · rw [hr]
      exact (alookup_filter st.schedules sid sid).trans (if_pos rfl)
    · intro sid' hne
      rw [hr]
      exact (alookup_filter st.schedules sid sid').trans (if_neg hne)
    · rw [hr]
      exact (alookup_assocSet st.user_schedules uid uid _).trans (if_pos rfl)
    · intro uid' hne
      rw [hr]
      exact (alookup_assocSet st.user_schedules uid uid' _).trans (if_neg hne)

/-- Witness for `remove_schedule_spec`: all three cases fire on the
demo state. -/
theorem remove_schedule_spec_witness :
    remove_schedule demoSched "s9" "alice" =
      (demoSched, some "Schedule not found") ∧
    remove_schedule demoSched "s1" "bob" =
      (demoSched, some "Not authorized to remove this schedule") ∧
    alookup (remove_schedule demoSched "s1" "alice").1.schedules "s1" = none :=
  ⟨(remove_schedule_spec demoSched "s9" "alice").1 (by decide),
   (remove_schedule_spec demoSched "s1" "bob").2.1 demoS1 (by decide) (by decide),
   ((remove_schedule_spec demoSched "s1" "alice").2.2 demoS1 (by decide)
     (by decide)).2.2.1⟩

end HackCMU

namespace HackCMU

/-! ## C5: `time_to_minutes` -/

theorem splitColon_ne_nil (l : List Char) : splitColon l ≠ [] := by
  induction l with
  | nil => simp [splitColon]
  | cons c rest ih =>
    by_cases h : c = ':'
    · simp [splitColon, h]
    · cases hr : splitColon rest <;> simp [splitColon, h, hr]

theorem splitColon_eq_single (l b : List Char) :
    splitColon l = [b] ↔ l = b ∧ ':' ∉ b := by
  induction l generalizing b with
  | nil =>
    constructor
    · intro he
      have hb : [] = b := by simpa [splitColon] using he
      subst hb
      exact ⟨rfl, by simp⟩
    · rintro ⟨hb, -⟩
      rw [← hb]
      simp [splitColon]
  | cons c rest ih =>
    by_cases h : c = ':'
    · subst h
      have hne := splitColon_ne_nil rest
      constructor
      · intro he
        rw [show splitColon (':' :: rest) = [] :: splitColon rest by
              simp [splitColon]] at he
        cases hs : splitColon rest with
        | nil => exact absurd hs hne
        | cons p ps => rw [hs] at he; simp at he
      · rintro ⟨hb, hnotin⟩
        exact absurd (hb ▸ List.mem_cons_self ':' rest) hnotin
    · cases hs : splitColon rest with
      | nil => exact absurd hs (splitColon_ne_nil rest)
      | cons p ps =>
        rw [show splitColon (c :: rest) = (c :: p) :: ps by
              simp only [splitColon, if_neg h, hs]]
        constructor
        · intro he
          obtain ⟨h1, h2⟩ : c :: p = b ∧ ps = [] := by simpa using he
          have hp : splitColon rest = [p] := by rw [hs, h2]
          obtain ⟨hq1, hq2⟩ := (ih p).mp hp
          subst h1
          refine ⟨by rw [hq1], ?_⟩
          intro hmem
          rcases List.mem_cons.mp hmem with e | e
          · exact h e.symm
          · exact hq2 e
        · rintro ⟨hb, hnotin⟩
          have hcr : ':' ∉ rest :=
            fun e => hnotin (hb ▸ List.mem_cons_of_mem c e)
          have hrest := (ih rest).mpr ⟨rfl, hcr⟩
          rw [hs] at hrest
          obtain ⟨h1, h2⟩ : p = rest ∧ ps = [] := by simpa using hrest
          rw [h1, h2, ← hb]

theorem splitColon_two (l a b : List Char) :
    splitColon l = [a, b] ↔ l = a ++ ':' :: b ∧ ':' ∉ a ∧ ':' ∉ b := by
  induction l generalizing a with
  | nil =>
    constructor
    · intro he
      simp [splitColon] at he
    · rintro ⟨hd, -, -⟩
      exact absurd hd (by cases a <;> simp)
  | cons c rest ih =>
    by_cases h : c = ':'
    · subst h
      rw [show splitColon (':' :: rest) = [] :: splitColon rest by
            simp [splitColon]]
      constructor
      · intro he
        obtain ⟨h1, h2⟩ : ([] : List Char) = a ∧ splitColon rest = [b] := by
          simpa using he
        obtain ⟨h3, h4⟩ := (splitColon_eq_single rest b).mp h2
        subst h1
        exact ⟨by simp [h3], by simp, h4⟩
      · rintro ⟨hd, hna, hnb⟩
        cases a with
        | nil =>
          have hd' : rest = b := by simpa using hd
          rw [(splitColon_eq_single rest b).mpr ⟨hd', hnb⟩]
        | cons x xs =>
          exfalso
          have hx : ':' = x := by
            have h12 : ':' = x ∧ rest = xs ++ ':' :: b := by simpa using hd
            exact h12.1
          exact hna (hx ▸ List.mem_cons_self x xs)
    · cases hs : splitColon rest with
      | nil => exact absurd hs (splitColon_ne_nil rest)
      | cons p ps =>
        rw [show splitColon (c :: rest) = (c :: p) :: ps by
              simp only [splitColon, if_neg h, hs]]
        constructor
        · intro he
          obtain ⟨h1, h2⟩ : c :: p = a ∧ ps = [b] := by simpa using he
          have hrest : splitColon rest = [p, b] := by rw [hs, h2]
          obtain ⟨hd, hnp, hnb⟩ := (ih p).mp hrest
          subst h1
          refine ⟨by simp [hd], ?_, hnb⟩
          intro hmem
          rcases List.mem_cons.mp hmem with e | e
          · exact h e.symm
          · exact hnp e
        · rintro ⟨hd, hna, hnb⟩
          cases a with
          | nil =>
            exfalso
            have hc : c = ':' := by
              have h12 : c = ':' ∧ rest = b := by simpa using hd
              exact h12.1
            exact h hc
          | cons x xs =>
            have h12 : c = x ∧ rest = xs ++ ':' :: b := by simpa using hd
            have hnxs : ':' ∉ xs := fun e => hna (List.mem_cons_of_mem x e)
            have hr := (ih xs).mpr ⟨h12.2, hnxs, hnb⟩
            rw [hs] at hr
            obtain ⟨h1, h2⟩ : p = xs ∧ ps = [b] := by simpa using hr
            rw [h1, h2, h12.1]

/-- Every value of `time_to_minutes` is either the defensive default 0
or `h*60+m` for an in-range hour and minute. -/
theorem time_to_minutes_cases (s : String) :
    time_to_minutes s = 0 ∨
      ∃ hh mm : Int, 0 ≤ hh ∧ hh ≤ 23 ∧ 0 ≤ mm ∧ mm ≤ 59 ∧
        time_to_minutes s = hh * 60 + mm := by
  unfold time_to_minutes
  split
  · split
    · split
      · split
        · rename_i hr
          exact .inr ⟨_, _, hr.1, hr.2.1, hr.2.2.1, hr.2.2.2, rfl⟩
        · exact .inl rfl
      · exact .inl rfl
    · exact .inl rfl
  · exact .inl rfl

/-- C5. `time_to_minutes` returns `h*60 + m` (a value in 0–1439)
exactly when the input decomposes around a single colon into two
`int()`-parsable fields with hour in 0–23 and minute in 0–59, and
returns 0 for every other input (missing colon, wrong field count,
non-numeric parts, out-of-range hour or minute), never raising; in
particular `time_to_minutes "09:30" = 570`,
`time_to_minutes "invalid" = 0` and `time_to_minutes "24:00" = 0`. -/
theorem time_to_minutes_spec (s : String) :
    (∀ (pre post : List Char) (hh mm : Int),
      s.data = pre ++ ':' :: post → ':' ∉ pre → ':' ∉ post →
      parseInt pre = some hh → parseInt post = some mm →
      ((0 ≤ hh ∧ hh ≤ 23 ∧ 0 ≤ mm ∧ mm ≤ 59) →
        time_to_minutes s = hh * 60 + mm) ∧
      (¬(0 ≤ hh ∧ hh ≤ 23 ∧ 0 ≤ mm ∧ mm ≤ 59) → time_to_minutes s = 0)) ∧
    ((¬∃ (pre post : List Char) (hh mm : Int),
        s.data = pre ++ ':' :: post ∧ ':' ∉ pre ∧ ':' ∉ post ∧
        parseInt pre = some hh ∧ parseInt post = some mm) →
      time_to_minutes s = 0) ∧
    0 ≤ time_to_minutes s ∧ time_to_minutes s ≤ 1439 ∧
    time_to_minutes "09:30" = 570 ∧ time_to_minutes "invalid" = 0 ∧
    time_to_minutes "24:00" = 0 := by
  have hbounds : 0 ≤ time_to_minutes s ∧ time_to_minutes s ≤ 1439 := by
    rcases time_to_minutes_cases s with h | ⟨hh, mm, h1, h2, h3, h4, he⟩
    · rw [h]; omega
    · rw [he]; omega
  refine ⟨?_, ?_, hbounds.1, hbounds.2, by decide, by decide, by decide⟩
  · intro pre post hh mm hdec hnp hnq hph hpm
    have hin : ':' ∈ s.data := by rw [hdec]; simp
    have h2 : splitColon s.data = [pre, post] :=
      (splitColon_two s.data pre post).mpr ⟨hdec, hnp, hnq⟩
    constructor <;> intro hrange
    · simp [time_to_minutes, hin, h2, hph, hpm, hrange]
    · simp [time_to_minutes, hin, h2, hph, hpm, hrange]
  · intro hne
    by_cases hin : ':' ∈ s.data
    · cases hsp : splitColon s.data with
      | nil => exact absurd hsp (splitColon_ne_nil _)
      | cons p ps =>
        cases ps with
        | nil =>
          obtain ⟨h1, h2⟩ := (splitColon_eq_single s.data p).mp hsp
          exact absurd (h1 ▸ hin) h2
        | cons q qs =>
          cases qs with
          | nil =>
            obtain ⟨hdec, hnp, hnq⟩ := (splitColon_two s.data p q).mp hsp
            cases hph : parseInt p with
            | none => simp [time_to_minutes, hin, hsp, hph]
            | some hv =>
              cases hpm : parseInt q with
              | none => simp [time_to_minutes, hin, hsp, hph, hpm]
              | some mv =>
                exact absurd ⟨p, q, hv, mv, hdec, hnp, hnq, hph, hpm⟩ hne
          | cons r rs => simp [time_to_minutes, hin, hsp]
    · simp [time_to_minutes, hin]

/-- Witness for `time_to_minutes_spec`: both the success branch, the
out-of-range branch and the no-decomposition branch fire. -/
theorem time_to_minutes_spec_witness :
    time_to_minutes "09:30" = 9 * 60 + 30 ∧
    time_to_minutes "24:00" = 0 ∧
    time_to_minutes "invalid" = 0 :=
  ⟨((time_to_minutes_spec "09:30").1 ['0', '9'] ['3', '0'] 9 30 (by decide)
      (by decide) (by decide) (by decide) (by decide)).1 (by decide),
   ((time_to_minutes_spec "24:00").1 ['2', '4'] ['0', '0'] 24 0 (by decide)
      (by decide) (by decide) (by decide) (by decide)).2 (by decide),
   (time_to_minutes_spec "invalid").2.1 (by
      rintro ⟨pre, post, hh, mm, hdec, -⟩
      exact absurd (hdec.symm ▸ (by simp : ':' ∈ pre ++ ':' :: post))
        (by decide))⟩

end HackCMU

namespace HackCMU

/-! ## C1 / C9: per-candidate score and reason -/

/-- The fields of a successfully built candidate record, read off the
`mk_partner` construction. -/
theorem mk_partner_fields (sch : ScheduleState) (sts : StatusState)
    (inst : Instant) (uid : String) (user : User) (ku : String × User)
    (p : StudyPartner) (hp : mk_partner sch sts inst uid user ku = some p) :
    p.id = ku.2.id ∧ p.major = ku.2.major ∧
    p.shared_classes = sharedClasses sch uid ku.1 ∧
    p.score = (sharedClasses sch uid ku.1).length * 20
      + (if user.major = ku.2.major then 15 else 0)
      + (if get_user_status sts ku.1 = .studying
            ∨ get_user_status sts ku.1 = .help
            ∨ get_user_status sts ku.1 = .free then 10 else 0) ∧
    p.reason = "Shares " ++ toString (sharedClasses sch uid ku.1).length
      ++ " class"
      ++ (if (sharedClasses sch uid ku.1).length > 1 then "es" else "")
      ++ " with you"
      ++ (if user.major = ku.2.major
          then "; Same major (" ++ user.major ++ ")" else "")
      ++ (if get_user_status sts ku.1 = .help then "; Available to help"
          else if get_user_status sts ku.1 = .studying
          then "; Currently studying" else "") := by
  simp only [mk_partner] at hp
  rcases Option.map_eq_some'.mp hp with ⟨nc, hnc, hrec⟩
  subst hrec
  exact ⟨rfl, rfl, rfl, rfl, rfl⟩

/-- The number of distinct shared course codes, as computed by the
set-intersection in the code, is the cardinality of the intersection
of the two users' course-code sets. -/
theorem length_shared_eq_card (l1 l2 : List String) :
    (l1.dedup.filter (fun c => c ∈ l2)).length =
      (l1.toFinset ∩ l2.toFinset).card := by
  have hnd : (l1.dedup.filter (fun c => decide (c ∈ l2))).Nodup :=
    (List.nodup_dedup l1).filter _
  have h1 : (l1.dedup.filter (fun c => decide (c ∈ l2))).toFinset.card
      = (l1.dedup.filter (fun c => decide (c ∈ l2))).length := by
    rw [List.card_toFinset, List.dedup_eq_self.mpr hnd]
  rw [← h1]
  congr 1
  ext x
  simp [List.mem_filter, List.mem_dedup, List.mem_toFinset, Finset.mem_inter]

/-- C1. For every requesting user and candidate with a non-empty
shared-course set, the candidate's score equals 20 times the number of
distinct shared course codes, plus 15 exactly when the two users'
major strings are equal, plus 10 exactly when the candidate's current
status is one of {studying, help, free}, an absent status record
counting as free. -/
theorem get_recommendations_score (sch : ScheduleState) (sts : StatusState)
    (inst : Instant) (uid : String) (user : User) (ku : String × User)
    (p : StudyPartner) (_hne : sharedClasses sch uid ku.1 ≠ [])
    (hp : mk_partner sch sts inst uid user ku = some p) :
    p.score =
      20 * ((coursesOf sch uid).toFinset ∩ (coursesOf sch ku.1).toFinset).card
      + (if user.major = ku.2.major then 15 else 0)
      + (match alookup sts.user_statuses ku.1 with
         | none => 10
         | some r =>
           if r.manual_status = .studying ∨ r.manual_status = .help ∨
               r.manual_status = .free then 10 else 0) := by
  obtain ⟨-, -, -, hs, -⟩ :=
    mk_partner_fields sch sts inst uid user ku p hp
  rw [hs]
  have hlen : (sharedClasses sch uid ku.1).length =
      ((coursesOf sch uid).toFinset ∩ (coursesOf sch ku.1).toFinset).card := by
    unfold sharedClasses
    exact length_shared_eq_card (coursesOf sch uid) (coursesOf sch ku.1)
  rw [hlen, Nat.mul_comm]
  congr 1
  unfold get_user_status
  cases h : alookup sts.user_statuses ku.1 with
  | none => simp
  | some r => rfl

/-- Witness for `get_recommendations_score`: in the demo state Bob
shares 2 courses with Alice, has the same major, and his absent status
counts as free, so his score is `20×2 + 15 + 10 = 65`. -/
theorem get_recommendations_score_witness :
    sharedClasses demoSched "alice" "bob" ≠ [] ∧
    mk_partner demoSched demoStatus demoInstant "alice" demoAlice
      ("bob", demoBob) = some demoPartnerBob ∧
    demoPartnerBob.score =
      20 * ((coursesOf demoSched "alice").toFinset ∩
        (coursesOf demoSched "bob").toFinset).card
      + (if demoAlice.major = demoBob.major then 15 else 0)
      + (match alookup demoStatus.user_statuses "bob" with
         | none => 10
         | some r =>
           if r.manual_status = .studying ∨ r.manual_status = .help ∨
               r.manual_status = .free then 10 else 0) ∧
    demoPartnerBob.score = 65 :=
  ⟨by decide, by decide,
   get_recommendations_score demoSched demoStatus demoInstant "alice"
     demoAlice ("bob", demoBob) demoPartnerBob (by decide) (by decide),
   by decide⟩

/-- C9. The reason string is built deterministically in order:
the share count (singular for one course, plural otherwise), then the
same-major part exactly when the majors match, then
"; Available to help" when the candidate's status is help, else
"; Currently studying" when it is studying — never both. -/
theorem get_recommendations_reason (sch : ScheduleState) (sts : StatusState)
    (inst : Instant) (uid : String) (user : User) (ku : String × User)
    (p : StudyPartner) (hne : sharedClasses sch uid ku.1 ≠ [])
    (hp : mk_partner sch sts inst uid user ku = some p) :
    p.reason =
      (if (sharedClasses sch uid ku.1).length = 1
       then "Shares 1 class with you"
       else "Shares " ++ toString (sharedClasses sch uid ku.1).length
         ++ " classes with you")
      ++ (if user.major = ku.2.major
          then "; Same major (" ++ user.major ++ ")" else "")
      ++ (if get_user_status sts ku.1 = .help then "; Available to help"
          else if get_user_status sts ku.1 = .studying
          then "; Currently studying" else "") := by
  obtain ⟨-, -, -, -, hr⟩ :=
    mk_partner_fields sch sts inst uid user ku p hp
  rw [hr]
  congr 2
  have hn0 : (sharedClasses sch uid ku.1).length ≠ 0 := by
    simpa [List.length_eq_zero] using hne
  by_cases h1 : (sharedClasses sch uid ku.1).length = 1
  · rw [if_pos h1, h1]
    decide
  · rw [if_neg h1]
    have h2 : (sharedClasses sch uid ku.1).length > 1 := by omega
    rw [if_pos h2]
    rw [String.append_assoc _ " class" "es",
        String.append_assoc _ (" class" ++ "es") " with you"]
    congr 1

/-- Witness for `get_recommendations_reason`: Bob's reason string in
the demo state. -/
theorem get_recommendations_reason_witness :
    sharedClasses demoSched "alice" "bob" ≠ [] ∧
    demoPartnerBob.reason =
      (if (sharedClasses demoSched "alice" "bob").length = 1
       then "Shares 1 class with you"
       else "Shares " ++ toString (sharedClasses demoSched "alice" "bob").length
         ++ " classes with you")
      ++ (if demoAlice.major = demoBob.major
          then "; Same major (" ++ demoAlice.major ++ ")" else "")
      ++ (if get_user_status demoStatus "bob" = .help
          then "; Available to help"
          else if get_user_status demoStatus "bob" = .studying
          then "; Currently studying" else "") ∧
    demoPartnerBob.reason = "Shares 2 classes with you; Same major (CS)" :=
  ⟨by decide,
   get_recommendations_reason demoSched demoStatus demoInstant "alice"
     demoAlice ("bob", demoBob) demoPartnerBob (by decide) (by decide),
   by decide⟩

end HackCMU

namespace HackCMU

/-! ## C6: `get_recent_class_for_user` -/

theorem recentStep_of_not (now : AInstant) (g : Int) (b : Option RecentClass)
    (ci : ClassInfo)
    (h : ¬(ci.day = some now.day ∧ ci.endTime.getD "" ≠ "" ∧
      0 < recentGap now ci ∧ recentGap now ci < g)) :
    recentStep now (time_to_minutes now.hhmm) (g, b) ci = (g, b) := by
  simp only [recentStep]
  split_ifs with h1 h2 h3
  · exact absurd ⟨h1, h2, h3.1, h3.2⟩ h
  · rfl
  · rfl
  · rfl

theorem recentStep_of_qual (now : AInstant) (g : Int) (b : Option RecentClass)
    (ci : ClassInfo)
    (h : ci.day = some now.day ∧ ci.endTime.getD "" ≠ "" ∧
      0 < recentGap now ci ∧ recentGap now ci < g) :
    recentStep now (time_to_minutes now.hhmm) (g, b) ci =
      (recentGap now ci,
       some ⟨ci.courseCode.getD "Unknown", ci.courseName.getD "",
         recentGap now ci⟩) := by
  simp only [recentStep]
  split_ifs with h1 h2 h3
  · rfl
  · exact absurd ⟨h.2.2.1, h.2.2.2⟩ h3
  · exact absurd h.2.1 h2
  · exact absurd h.1 h1

theorem recent_fold_none (now : AInstant) (l : List ClassInfo) :
    ∀ (g : Int) (b : Option RecentClass),
      (∀ ci ∈ l, ¬(ci.day = some now.day ∧ ci.endTime.getD "" ≠ "" ∧
        0 < recentGap now ci ∧ recentGap now ci < g)) →
      l.foldl (recentStep now (time_to_minutes now.hhmm)) (g, b) = (g, b) := by
  induction l with
  | nil => intro g b _; rfl
  | cons ci rest ih =>
    intro g b h
    rw [List.foldl_cons, recentStep_of_not now g b ci (h ci (by simp))]
    exact ih g b (fun ci' hm => h ci' (List.mem_cons_of_mem _ hm))

theorem recent_fold_some (now : AInstant) (l : List ClassInfo) :
    ∀ (g : Int) (b : Option RecentClass),
      (∃ ci ∈ l, ci.day = some now.day ∧ ci.endTime.getD "" ≠ "" ∧
        0 < recentGap now ci ∧ recentGap now ci < g) →
      ∃ ci ∈ l, (ci.day = some now.day ∧ ci.endTime.getD "" ≠ "" ∧
          0 < recentGap now ci ∧ recentGap now ci < g) ∧
        l.foldl (recentStep now (time_to_minutes now.hhmm)) (g, b) =
          (recentGap now ci,
           some ⟨ci.courseCode.getD "Unknown", ci.courseName.getD "",
             recentGap now ci⟩) ∧
        (∀ ci' ∈ l, (ci'.day = some now.day ∧ ci'.endTime.getD "" ≠ "" ∧
            0 < recentGap now ci' ∧ recentGap now ci' < g) →
          recentGap now ci ≤ recentGap now ci') := by
  induction l with
  | nil => rintro g b ⟨ci, hm, -⟩; exact absurd hm (by simp)
  | cons ci rest ih =>
    intro g b hex
    by_cases hq : ci.day = some now.day ∧ ci.endTime.getD "" ≠ "" ∧
        0 < recentGap now ci ∧ recentGap now ci < g
    · rw [List.foldl_cons, recentStep_of_qual now g b ci hq]
      by_cases hrest : ∃ c ∈ rest, c.day = some now.day ∧
          c.endTime.getD "" ≠ "" ∧ 0 < recentGap now c ∧
          recentGap now c < recentGap now ci
      · obtain ⟨c, hm, hqc, heq, hmin⟩ := ih (recentGap now ci) _ hrest
        refine ⟨c, List.mem_cons_of_mem _ hm,
          ⟨hqc.1, hqc.2.1, hqc.2.2.1, lt_trans hqc.2.2.2 hq.2.2.2⟩, heq, ?_⟩
        intro c' hm' hqc'
        rcases List.mem_cons.mp hm' with rfl | hm2
        · exact le_of_lt hqc.2.2.2
        · by_cases hcg : recentGap now c' < recentGap now ci
          · exact hmin c' hm2 ⟨hqc'.1, hqc'.2.1, hqc'.2.2.1, hcg⟩
          · exact le_trans (le_of_lt hqc.2.2.2) (not_lt.mp hcg)
      · rw [recent_fold_none now rest (recentGap now ci) _
          (fun c hm hc => hrest ⟨c, hm, hc⟩)]
        refine ⟨ci, List.mem_cons_self .., hq, rfl, ?_⟩
        intro c' hm' hqc'
        rcases List.mem_cons.mp hm' with rfl | hm2
        · exact le_refl _
        · by_cases hcg : recentGap now c' < recentGap now ci
          · exact absurd ⟨c', hm2, hqc'.1, hqc'.2.1, hqc'.2.2.1, hcg⟩ hrest
          · exact not_lt.mp hcg
    · rw [List.foldl_cons, recentStep_of_not now g b ci hq]
      have hex2 : ∃ c ∈ rest, c.day = some now.day ∧
          c.endTime.getD "" ≠ "" ∧ 0 < recentGap now c ∧
          recentGap now c < g := by
        obtain ⟨c, hm, hc⟩ := hex
        rcases List.mem_cons.mp hm with rfl | hm2
        · exact absurd hc hq
        · exact ⟨c, hm2, hc⟩
      obtain ⟨c, hm, hqc, heq, hmin⟩ := ih g b hex2
      refine ⟨c, List.mem_cons_of_mem _ hm, hqc, heq, ?_⟩
      intro c' hm' hqc'
      rcases List.mem_cons.mp hm' with rfl | hm2
      · exact absurd hqc' hq
      · exact hmin c' hm2 hqc'

/-- C6. `get_recent_class_for_user` returns an entry on the
reference day whose end time is strictly less than the reference
time-of-day with gap (reference minutes − end minutes) satisfying
`0 < gap < 60`, choosing the entry with the smallest such gap, and
returns nothing when no entry on the reference day ended within the
last 59 minutes. -/
theorem get_recent_class_spec (eng : Engine) (uid : String) (now : AInstant) :
    (get_recent_class_for_user eng uid now = none ↔
      ∀ ci ∈ entriesOf eng uid, ¬recentlyEnded now ci) ∧
    (∀ rc, get_recent_class_for_user eng uid now = some rc →
      ∃ ci ∈ entriesOf eng uid, recentlyEnded now ci ∧
        rc = ⟨ci.courseCode.getD "Unknown", ci.courseName.getD "",
          recentGap now ci⟩ ∧
        rc.endedMinutesAgo = recentGap now ci ∧
        ∀ ci' ∈ entriesOf eng uid, recentlyEnded now ci' →
          recentGap now ci ≤ recentGap now ci') := by
  cases hl : alookup eng.schedules uid with
  | none =>
    constructor
    · simp [get_recent_class_for_user, hl, entriesOf]
    · intro rc hrc
      rw [show get_recent_class_for_user eng uid now = none by
            simp [get_recent_class_for_user, hl]] at hrc
      cases hrc
  | some rec =>
    have hent : entriesOf eng uid = rec.schedule.getD [] := by
      simp [entriesOf, hl]
    have hres : get_recent_class_for_user eng uid now =
        ((rec.schedule.getD []).foldl
          (recentStep now (time_to_minutes now.hhmm)) (60, none)).2 := by
      simp [get_recent_class_for_user, hl]
    by_cases hex : ∃ ci ∈ rec.schedule.getD [], recentlyEnded now ci
    · obtain ⟨ci, hm, hq, heq, hmin⟩ :=
        recent_fold_some now (rec.schedule.getD []) 60 none
          (by obtain ⟨c, hm, hc⟩ := hex; exact ⟨c, hm, hc⟩)
      constructor
      · rw [hres, heq]
        constructor
        · intro h; cases h
        · intro hall
          exact absurd hq (hall ci (hent ▸ hm))
      · intro rc hrc
        rw [hres, heq] at hrc
        have hrc2 : rc = ⟨ci.courseCode.getD "Unknown",
            ci.courseName.getD "", recentGap now ci⟩ :=
          (Option.some.injEq .. ▸ hrc).symm
        refine ⟨ci, hent ▸ hm, hq, hrc2, by rw [hrc2], ?_⟩
        intro ci' hm' hq'
        exact hmin ci' (hent ▸ hm') hq'
    · have hnone := recent_fold_none now (rec.schedule.getD []) 60 none
        (fun c hm hc => hex ⟨c, hm, hc⟩)
      constructor
      · rw [hres, hnone]
        constructor
        · intro _ ci hm hq
          exact hex ⟨ci, hent ▸ hm, hq⟩
        · intro _; rfl
      · intro rc hrc
        rw [hres, hnone] at hrc
        cases hrc

/-- Witness for `get_recent_class_spec`: in `engineRecent` at Monday
10:30 the 10:20 class is returned (gap 10), beating the 10:00 class
(gap 30). -/
theorem get_recent_class_spec_witness :
    get_recent_class_for_user engineRecent "u1"
      ⟨"monday", "10:30"⟩ = some ⟨"CS 15-122", "", 10⟩ ∧
    (∃ ci ∈ entriesOf engineRecent "u1",
      recentlyEnded ⟨"monday", "10:30"⟩ ci ∧
      (⟨"CS 15-122", "", 10⟩ : RecentClass) =
        ⟨ci.courseCode.getD "Unknown", ci.courseName.getD "",
          recentGap ⟨"monday", "10:30"⟩ ci⟩ ∧
      (⟨"CS 15-122", "", 10⟩ : RecentClass).endedMinutesAgo =
        recentGap ⟨"monday", "10:30"⟩ ci ∧
      ∀ ci' ∈ entriesOf engineRecent "u1",
        recentlyEnded ⟨"monday", "10:30"⟩ ci' →
          recentGap ⟨"monday", "10:30"⟩ ci ≤
            recentGap ⟨"monday", "10:30"⟩ ci') :=
  ⟨by decide,
   (get_recent_class_spec engineRecent "u1" ⟨"monday", "10:30"⟩).2
     ⟨"CS 15-122", "", 10⟩ (by decide)⟩

end HackCMU

namespace HackCMU

/-! ## C3: the status board partition -/

theorem alookup_mem {α : Type} (l : List (String × α)) (k : String) (v : α)
    (h : alookup l k = some v) : (k, v) ∈ l := by
  induction l with
  | nil => cases h
  | cons p ps ih =>
    by_cases hp : p.1 = k
    · rw [alookup, if_pos hp] at h
      have hv : p.2 = v := Option.some.inj h
      have hkv : (k, v) = p := by
        rw [← hp, ← hv]
      rw [hkv]
      exact List.mem_cons_self _ _
    · rw [alookup, if_neg hp] at h
      exact List.mem_cons_of_mem _ (ih h)

theorem mem_get_user_schedules (sch : ScheduleState) (uid : String)
    (s : Schedule) (h : s ∈ get_user_schedules sch uid) :
    ∃ sid, (sid, s) ∈ sch.schedules := by
  unfold get_user_schedules at h
  obtain ⟨sid, -, hl⟩ := List.mem_filterMap.mp h
  exact ⟨sid, alookup_mem _ _ _ hl⟩

/-- Under the data-model invariant that stored course codes are
nonempty, the truthiness test on the `current_class` string computed
by the board loop coincides with the in-class predicate. -/
theorem truthy_current_class (sch : ScheduleState) (inst : Instant)
    (uid : String) (hcc : ∀ p ∈ sch.schedules, p.2.course_code ≠ "") :
    truthy (current_class_of (get_user_schedules sch uid) inst) = true ↔
      inClassNow sch inst uid := by
  unfold current_class_of
  cases hf : (get_user_schedules sch uid).find? (fun s =>
      decide (s.day = inst.day) && pyLe s.start_time inst.hhmm
        && pyLe inst.hhmm s.end_time) with
  | none =>
    have hnone := List.find?_eq_none.mp hf
    simp only [Option.map_none']
    constructor
    · intro h; cases h
    · rintro ⟨s, hm, h1, h2, h3⟩
      exact absurd (by simp [h1, h2, h3]) (hnone s hm)
  | some s =>
    have hps := List.find?_some hf
    have hmem := List.mem_of_find?_eq_some hf
    obtain ⟨sid, hpair⟩ := mem_get_user_schedules sch uid s hmem
    have hcode : s.course_code ≠ "" := hcc (sid, s) hpair
    simp only [Option.map_some', Bool.and_eq_true, decide_eq_true_eq] at hps ⊢
    obtain ⟨⟨h1, h2⟩, h3⟩ := hps
    constructor
    · intro _
      exact ⟨s, hmem, h1, h2, h3⟩
    · intro _
      simp [truthy, hcode]

theorem mkBoardUser_id (sch : ScheduleState) (sts : StatusState)
    (inst : Instant) (ku : String × User) (su : StatusBoardUser)
    (h : mkBoardUser sch sts inst ku = some su) : su.id = ku.2.id := by
  simp only [mkBoardUser] at h
  rcases Option.map_eq_some'.mp h with ⟨nc, -, hrec⟩
  rw [← hrec]

theorem board_split_spec (sch : ScheduleState) (sts : StatusState)
    (inst : Instant) :
    ∀ (l : List (String × User)) (ic fr : List StatusBoardUser),
      board_split sch sts inst l = some (ic, fr) →
      ic.map (fun u => u.id) =
        (l.filter (fun ku =>
          truthy (current_class_of (get_user_schedules sch ku.1) inst))).map
          (fun ku => ku.2.id) ∧
      fr.map (fun u => u.id) =
        (l.filter (fun ku =>
          !truthy (current_class_of (get_user_schedules sch ku.1) inst))).map
          (fun ku => ku.2.id) := by
  intro l
  induction l with
  | nil =>
    intro ic fr h
    obtain ⟨rfl, rfl⟩ : ([] : List StatusBoardUser) = ic ∧
        ([] : List StatusBoardUser) = fr := by
      simpa [board_split] using h
    simp
  | cons ku rest ih =>
    intro ic fr h
    cases hsu : mkBoardUser sch sts inst ku with
    | none =>
      rw [show board_split sch sts inst (ku :: rest) = none by
            simp [board_split, hsu]] at h
      cases h
    | some su =>
      cases hrest : board_split sch sts inst rest with
      | none =>
        rw [show board_split sch sts inst (ku :: rest) = none by
              simp [board_split, hsu, hrest]] at h
        cases h
      | some p =>
        obtain ⟨ic', fr'⟩ := p
        rw [show board_split sch sts inst (ku :: rest) =
              if truthy (current_class_of (get_user_schedules sch ku.1) inst)
              then some (su :: ic', fr') else some (ic', su :: fr') by
              simp [board_split, hsu, hrest]] at h
        have hid := mkBoardUser_id sch sts inst ku su hsu
        obtain ⟨h1, h2⟩ := ih ic' fr' hrest
        by_cases hc : truthy (current_class_of
            (get_user_schedules sch ku.1) inst) = true
        · rw [if_pos hc] at h
          obtain ⟨rfl, rfl⟩ : su :: ic' = ic ∧ fr' = fr := by simpa using h
          constructor
          · simp [List.filter_cons, hc, h1, hid]
          · simp [List.filter_cons, hc, h2]
        · rw [if_neg hc] at h
          obtain ⟨rfl, rfl⟩ : ic' = ic ∧ su :: fr' = fr := by simpa using h
          constructor
          · simp [List.filter_cons, hc, h1]
          · simp only [List.filter_cons]
            rw [if_pos (by simp [Bool.not_eq_true] at hc ⊢; exact hc)]
            simp [h2, hid]

end HackCMU

namespace HackCMU

theorem count_filter_partition {α β : Type} [DecidableEq β] (l : List α)
    (p : α → Bool) (f : α → β) (x : β) :
    ((l.filter p).map f).count x + ((l.filter (fun a => !p a)).map f).count x
      = (l.map f).count x := by
  induction l with
  | nil => rfl
  | cons a rest ih =>
    by_cases hp : p a = true <;> by_cases hfx : f a = x <;>
      simp [List.filter_cons, hp, hfx, List.count_cons] <;> omega

/-- C3. For every population, schedule store, status store and
reference instant on which the board build succeeds, the status board
partitions the known users exhaustively and disjointly: every user in
the user store appears in exactly one of the `in_class` and `free`
lists (`in_class` exactly when some schedule entry on the reference
day contains the reference time), and order within each list follows
population iteration order.  The hypotheses are the data-model
invariants maintained by the stores: users are keyed by their own id,
dictionary keys are unique, and stored course codes are nonempty. -/
theorem get_current_status_spec (sch : ScheduleState) (sts : StatusState)
    (inst : Instant) (resp : CurrentStatusResponse)
    (hids : ∀ p ∈ sch.users, p.2.id = p.1)
    (hkeys : (sch.users.map Prod.fst).Nodup)
    (hcc : ∀ p ∈ sch.schedules, p.2.course_code ≠ "")
    (hresp : get_current_status sch sts inst = some resp) :
    resp.now = inst.iso ∧
    resp.in_class.map (fun u => u.id) =
      (sch.users.filter (fun ku => decide (inClassNow sch inst ku.1))).map
        (fun ku => ku.2.id) ∧
    resp.free.map (fun u => u.id) =
      (sch.users.filter (fun ku => !decide (inClassNow sch inst ku.1))).map
        (fun ku => ku.2.id) ∧
    ∀ ku ∈ sch.users,
      (resp.in_class.map (fun u => u.id)).count ku.2.id
        + (resp.free.map (fun u => u.id)).count ku.2.id = 1 ∧
      (ku.2.id ∈ resp.in_class.map (fun u => u.id) ↔
        inClassNow sch inst ku.1) := by
  obtain ⟨⟨ic, fr⟩, hbs, hmk⟩ := Option.map_eq_some'.mp hresp
  subst hmk
  obtain ⟨h1, h2⟩ := board_split_spec sch sts inst sch.users ic fr hbs
  have hfeq : sch.users.filter (fun ku =>
        truthy (current_class_of (get_user_schedules sch ku.1) inst))
      = sch.users.filter (fun ku => decide (inClassNow sch inst ku.1)) := by
    apply List.filter_congr
    intro ku _
    by_cases hi : inClassNow sch inst ku.1
    · rw [decide_eq_true hi]
      exact (truthy_current_class sch inst ku.1 hcc).mpr hi
    · rw [decide_eq_false hi, ← Bool.not_eq_true]
      exact fun hcontra => hi ((truthy_current_class sch inst ku.1 hcc).mp hcontra)
  have hfeq2 : sch.users.filter (fun ku =>
        !truthy (current_class_of (get_user_schedules sch ku.1) inst))
      = sch.users.filter (fun ku => !decide (inClassNow sch inst ku.1)) := by
    apply List.filter_congr
    intro ku _
    by_cases hi : inClassNow sch inst ku.1
    · rw [decide_eq_true hi, (truthy_current_class sch inst ku.1 hcc).mpr hi]
    · rw [decide_eq_false hi]
      congr 1
      rw [← Bool.not_eq_true]
      exact fun hcontra => hi ((truthy_current_class sch inst ku.1 hcc).mp hcontra)
  have hidm : sch.users.map (fun ku => ku.2.id) = sch.users.map Prod.fst :=
    List.map_congr_left hids
  have hnodup : (sch.users.map (fun ku => ku.2.id)).Nodup := by
    rw [hidm]; exact hkeys
  have h1' : ic.map (fun u => u.id) =
      (sch.users.filter (fun ku => decide (inClassNow sch inst ku.1))).map
        (fun ku => ku.2.id) := by rw [h1, hfeq]
  have h2' : fr.map (fun u => u.id) =
      (sch.users.filter (fun ku => !decide (inClassNow sch inst ku.1))).map
        (fun ku => ku.2.id) := by rw [h2, hfeq2]
  refine ⟨rfl, h1', h2', ?_⟩
  intro ku hm
  constructor
  · show (ic.map (fun u => u.id)).count ku.2.id
      + (fr.map (fun u => u.id)).count ku.2.id = 1
    rw [h1', h2', count_filter_partition]
    exact List.count_eq_one_of_mem hnodup
      (List.mem_map_of_mem (fun ku => ku.2.id) hm)
  · show ku.2.id ∈ ic.map (fun u => u.id) ↔ inClassNow sch inst ku.1
    rw [h1']
    constructor
    · intro hmem
      obtain ⟨ku', hku', hid⟩ := List.mem_map.mp hmem
      have hku'mem : ku' ∈ sch.users := (List.mem_filter.mp hku').1
      have hp : decide (inClassNow sch inst ku'.1) = true :=
        (List.mem_filter.mp hku').2
      have hinj := List.inj_on_of_nodup_map hnodup
      have heq : ku' = ku := hinj hku'mem hm hid
      rw [← heq]
      exact of_decide_eq_true hp
    · intro hin
      exact List.mem_map.mpr
        ⟨ku, List.mem_filter_of_mem hm (decide_eq_true hin), rfl⟩

/-- Witness for `get_current_status_spec`: in the demo state at Monday
09:30 both users are in class and the free list is empty. -/
theorem get_current_status_spec_witness :
    get_current_status demoSched demoStatus demoInstant = some demoBoard ∧
    demoBoard.now = demoInstant.iso ∧
    demoBoard.in_class.map (fun u => u.id) =
      (demoSched.users.filter (fun ku =>
        decide (inClassNow demoSched demoInstant ku.1))).map
        (fun ku => ku.2.id) ∧
    (demoBoard.in_class.map (fun u => u.id)).count "alice"
      + (demoBoard.free.map (fun u => u.id)).count "alice" = 1 :=
  ⟨by decide,
   (get_current_status_spec demoSched demoStatus demoInstant demoBoard
     (by decide) (by decide) (by decide) (by decide)).1,
   (get_current_status_spec demoSched demoStatus demoInstant demoBoard
     (by decide) (by decide) (by decide) (by decide)).2.1,
   ((get_current_status_spec demoSched demoStatus demoInstant demoBoard
     (by decide) (by decide) (by decide) (by decide)).2.2.2
     ("alice", demoAlice) (by decide)).1⟩

end HackCMU

namespace HackCMU

/-! ## C2: shape of the recommendation list -/

theorem insertByScore_perm (x : StudyPartner) (l : List StudyPartner) :
    (insertByScore x l).Perm (x :: l) := by
  induction l with
  | nil => exact List.Perm.refl _
  | cons y ys ih =>
    rw [insertByScore]
    split_ifs with h
    · exact List.Perm.refl _
    · exact (List.Perm.cons y ih).trans (List.Perm.swap x y ys)

theorem sortByScoreDesc_perm (l : List StudyPartner) :
    (sortByScoreDesc l).Perm l := by
  induction l with
  | nil => exact List.Perm.refl _
  | cons x xs ih =>
    rw [sortByScoreDesc]
    exact (insertByScore_perm x (sortByScoreDesc xs)).trans
      (List.Perm.cons x ih)

theorem insertByScore_sorted (x : StudyPartner) (l : List StudyPartner)
    (h : l.Pairwise (fun a b => b.score ≤ a.score)) :
    (insertByScore x l).Pairwise (fun a b => b.score ≤ a.score) := by
  induction l with
  | nil => simp [insertByScore]
  | cons y ys ih =>
    rw [insertByScore]
    rw [List.pairwise_cons] at h
    split_ifs with hxy
    · refine List.Pairwise.cons ?_ (List.Pairwise.cons h.1 h.2)
      intro b hb
      rcases List.mem_cons.mp hb with rfl | hb2
      · exact hxy
      · exact le_trans (h.1 b hb2) hxy
    · refine List.Pairwise.cons ?_ (ih h.2)
      intro b hb
      have hb' : b ∈ x :: ys := (insertByScore_perm x ys).mem_iff.mp hb
      rcases List.mem_cons.mp hb' with rfl | hb2
      · exact le_of_lt (not_le.mp hxy)
      · exact h.1 b hb2

theorem sortByScoreDesc_sorted (l : List StudyPartner) :
    (sortByScoreDesc l).Pairwise (fun a b => b.score ≤ a.score) := by
  induction l with
  | nil => simp [sortByScoreDesc]
  | cons x xs ih => exact insertByScore_sorted x _ ih

theorem insertByScore_filter (x : StudyPartner) (l : List StudyPartner)
    (sc : Nat) :
    (insertByScore x l).filter (fun p => decide (p.score = sc)) =
      if x.score = sc then x :: l.filter (fun p => decide (p.score = sc))
      else l.filter (fun p => decide (p.score = sc)) := by
  induction l with
  | nil =>
    by_cases hx : x.score = sc <;> simp [insertByScore, List.filter_cons, hx]
  | cons y ys ih =>
    rw [insertByScore]
    by_cases hxy : y.score ≤ x.score
    · rw [if_pos hxy]
      by_cases hx : x.score = sc <;> simp [List.filter_cons, hx]
    · rw [if_neg hxy]
      have hyx : x.score < y.score := not_le.mp hxy
      by_cases hx : x.score = sc
      · have hy : ¬(y.score = sc) := by omega
        simp [List.filter_cons, ih, hx, hy]
      · simp [List.filter_cons, ih, hx]

theorem sortByScoreDesc_filter (l : List StudyPartner) (sc : Nat) :
    (sortByScoreDesc l).filter (fun p => decide (p.score = sc)) =
      l.filter (fun p => decide (p.score = sc)) := by
  induction l with
  | nil => rfl
  | cons x xs ih =>
    rw [sortByScoreDesc, insertByScore_filter]
    by_cases hx : x.score = sc
    · rw [if_pos hx, ih, List.filter_cons, if_pos (by simpa using hx)]
    · rw [if_neg hx, ih, List.filter_cons, if_neg (by simpa using hx)]

theorem rec_candidates_mem (sch : ScheduleState) (sts : StatusState)
    (inst : Instant) (uid : String) (user : User) :
    ∀ (l : List (String × User)) (cs : List StudyPartner),
      rec_candidates sch sts inst uid user l = some cs →
      ∀ p ∈ cs, ∃ ku ∈ l, ku.1 ≠ uid ∧ sharedClasses sch uid ku.1 ≠ [] ∧
        mk_partner sch sts inst uid user ku = some p := by
  intro l
  induction l with
  | nil =>
    intro cs h p hp
    obtain rfl : cs = [] := by simpa [rec_candidates] using h.symm
    cases hp
  | cons ku rest ih =>
    intro cs h p hp
    by_cases hself : ku.1 = uid
    · rw [show rec_candidates sch sts inst uid user (ku :: rest) =
            rec_candidates sch sts inst uid user rest by
            simp [rec_candidates, hself]] at h
      obtain ⟨ku', hm, hprops⟩ := ih cs h p hp
      exact ⟨ku', List.mem_cons_of_mem _ hm, hprops⟩
    · by_cases hsh : sharedClasses sch uid ku.1 = []
      · rw [show rec_candidates sch sts inst uid user (ku :: rest) =
              rec_candidates sch sts inst uid user rest by
              simp [rec_candidates, hself, hsh]] at h
        obtain ⟨ku', hm, hprops⟩ := ih cs h p hp
        exact ⟨ku', List.mem_cons_of_mem _ hm, hprops⟩
      · cases hmk : mk_partner sch sts inst uid user ku with
        | none =>
          rw [show rec_candidates sch sts inst uid user (ku :: rest) = none by
                simp [rec_candidates, hself, hsh, hmk]] at h
          cases h
        | some q =>
          cases hrest : rec_candidates sch sts inst uid user rest with
          | none =>
            rw [show rec_candidates sch sts inst uid user (ku :: rest) = none by
                  simp [rec_candidates, hself, hsh, hmk, hrest]] at h
            cases h
          | some qs =>
            rw [show rec_candidates sch sts inst uid user (ku :: rest) =
                  some (q :: qs) by
                  simp [rec_candidates, hself, hsh, hmk, hrest]] at h
            obtain rfl : q :: qs = cs := Option.some.inj h
            rcases List.mem_cons.mp hp with rfl | hp2
            · exact ⟨ku, List.mem_cons_self .., hself, hsh, hmk⟩
            · obtain ⟨ku', hm, hprops⟩ := ih qs hrest p hp2
              exact ⟨ku', List.mem_cons_of_mem _ hm, hprops⟩

end HackCMU

namespace HackCMU

/-- C2. For every population, the recommendation list (whenever
the computation succeeds) never contains the requesting user, never
contains a candidate whose shared-course set with the requester is
empty, has length at most 5, is sorted by score in descending order,
and ties retain population-iteration order: for every score value the
recommendations carrying it form a prefix of the candidate list (which
is built in population iteration order); the list is empty when the
requesting user id is not in the user store.  The hypothesis is the
store invariant that users are keyed by their own id. -/
theorem get_recommendations_spec (sch : ScheduleState) (sts : StatusState)
    (inst : Instant) (uid : String)
    (hids : ∀ p ∈ sch.users, p.2.id = p.1) :
    (alookup sch.users uid = none →
      get_recommendations sch sts inst uid = some []) ∧
    (∀ res, get_recommendations sch sts inst uid = some res →
      (∀ p ∈ res, p.id ≠ uid) ∧
      (∀ p ∈ res, p.shared_classes ≠ []) ∧
      res.length ≤ 5 ∧
      res.Pairwise (fun a b => b.score ≤ a.score) ∧
      (∀ user cands, alookup sch.users uid = some user →
        rec_candidates sch sts inst uid user sch.users = some cands →
        ∀ sc : Nat, res.filter (fun p => decide (p.score = sc)) <+:
          cands.filter (fun p => decide (p.score = sc)))) := by
  constructor
  · intro h
    simp [get_recommendations, h]
  · intro res hres
    cases halo : alookup sch.users uid with
    | none =>
      rw [show get_recommendations sch sts inst uid = some [] by
            simp [get_recommendations, halo]] at hres
      obtain rfl : ([] : List StudyPartner) = res := Option.some.inj hres
      refine ⟨by simp, by simp, by simp, by simp, ?_⟩
      intro user cands h1 _ sc
      exact absurd h1 (by simp)
    | some user0 =>
      rw [show get_recommendations sch sts inst uid =
            (rec_candidates sch sts inst uid user0 sch.users).map
              (fun recommendations =>
                (sortByScoreDesc recommendations).take 5) by
            simp [get_recommendations, halo]] at hres
      obtain ⟨cands0, hc0, hres2⟩ := Option.map_eq_some'.mp hres
      subst hres2
      have hsubcands : ∀ p ∈ (sortByScoreDesc cands0).take 5, p ∈ cands0 := by
        intro p hp
        exact (sortByScoreDesc_perm cands0).subset (List.take_subset 5 _ hp)
      refine ⟨?_, ?_, List.length_take_le 5 _,
        List.Pairwise.sublist (List.take_sublist 5 _)
          (sortByScoreDesc_sorted cands0), ?_⟩
      · intro p hp
        obtain ⟨ku, hm, hne, hsh, hmk⟩ :=
          rec_candidates_mem sch sts inst uid user0 sch.users cands0 hc0 p
            (hsubcands p hp)
        obtain ⟨hid, -, -, -, -⟩ :=
          mk_partner_fields sch sts inst uid user0 ku p hmk
        rw [hid, hids ku hm]
        exact hne
      · intro p hp
        obtain ⟨ku, hm, hne, hsh, hmk⟩ :=
          rec_candidates_mem sch sts inst uid user0 sch.users cands0 hc0 p
            (hsubcands p hp)
        obtain ⟨-, -, hshared, -, -⟩ :=
          mk_partner_fields sch sts inst uid user0 ku p hmk
        rw [hshared]
        exact hsh
      · intro user cands h1 h2 sc
        obtain rfl : user0 = user := Option.some.inj h1
        obtain rfl : cands0 = cands := Option.some.inj (hc0.symm.trans h2)
        have htp : (sortByScoreDesc cands0).take 5 <+: sortByScoreDesc cands0 :=
          List.take_prefix 5 _
        have hpre : ((sortByScoreDesc cands0).take 5).filter
              (fun p => decide (p.score = sc)) <+:
            (sortByScoreDesc cands0).filter (fun p => decide (p.score = sc)) :=
          htp.filter _
        rw [sortByScoreDesc_filter] at hpre
        exact hpre

/-- Witness for `get_recommendations_spec`: Alice's recommendation
list in the demo state is exactly `[demoPartnerBob]`, satisfying every
clause. -/
theorem get_recommendations_spec_witness :
    get_recommendations demoSched demoStatus demoInstant "alice" =
      some [demoPartnerBob] ∧
    (∀ p ∈ [demoPartnerBob], p.id ≠ "alice") ∧
    [demoPartnerBob].length ≤ 5 ∧
    (List.filter (fun p => decide (p.score = 65)) [demoPartnerBob] <+:
      List.filter (fun p => decide (p.score = 65)) [demoPartnerBob]) :=
  ⟨by decide,
   ((get_recommendations_spec demoSched demoStatus demoInstant "alice"
      (by decide)).2 [demoPartnerBob] (by decide)).1,
   ((get_recommendations_spec demoSched demoStatus demoInstant "alice"
      (by decide)).2 [demoPartnerBob] (by decide)).2.2.1,
   ((get_recommendations_spec demoSched demoStatus demoInstant "alice"
      (by decide)).2 [demoPartnerBob] (by decide)).2.2.2.2 demoAlice
      [demoPartnerBob] (by decide) (by decide) 65⟩

end HackCMU

namespace HackCMU

/-! ## C10: lexicographic comparison of zero-padded times agrees with
`is_time_between` -/

theorem fmtTime_data (h m : Nat) :
    (fmtTime h m).data =
      [digitChar (h / 10), digitChar (h % 10), ':',
       digitChar (m / 10), digitChar (m % 10)] := rfl

theorem digitChar_lt_iff {a b : Nat} (ha : a < 10) (hb : b < 10) :
    (digitChar a < digitChar b) ↔ a < b := by
  interval_cases a <;> interval_cases b <;> decide

theorem digitChar_eq_iff {a b : Nat} (ha : a < 10) (hb : b < 10) :
    (digitChar a = digitChar b) ↔ a = b := by
  interval_cases a <;> interval_cases b <;> decide

theorem digitChar_ne_colon {a : Nat} (ha : a < 10) : digitChar a ≠ ':' := by
  interval_cases a <;> decide

theorem parseInt_two_digits {a b : Nat} (ha : a < 10) (hb : b < 10) :
    parseInt [digitChar a, digitChar b] = some ((10 * a + b : Nat) : Int) := by
  interval_cases a <;> interval_cases b <;> decide

theorem lexLe_nil (m : List Char) : lexLe [] m = true := rfl

theorem lexLe_cons_iff (a b : Char) (l m : List Char) :
    lexLe (a :: l) (b :: m) = true ↔
      a < b ∨ (a = b ∧ lexLe l m = true) := by
  rw [lexLe]
  split_ifs with h1 h2 <;> simp_all

/-- `time_to_minutes` recovers the minute value of every well-formed
zero-padded time string. -/
theorem time_to_minutes_fmt (h m : Nat) (hh : h ≤ 23) (hm : m ≤ 59) :
    time_to_minutes (fmtTime h m) = ((h * 60 + m : Nat) : Int) := by
  have hd1 : h / 10 < 10 := by omega
  have hd2 : h % 10 < 10 := by omega
  have hd3 : m / 10 < 10 := by omega
  have hd4 : m % 10 < 10 := by omega
  have hin : ':' ∈ (fmtTime h m).data := by
    rw [fmtTime_data]
    simp
  have hnc1 : ':' ∉ [digitChar (h / 10), digitChar (h % 10)] := by
    intro hc
    rcases List.mem_cons.mp hc with e | e
    · exact digitChar_ne_colon hd1 e.symm
    · rcases List.mem_cons.mp e with e2 | e2
      · exact digitChar_ne_colon hd2 e2.symm
      · cases e2
  have hnc2 : ':' ∉ [digitChar (m / 10), digitChar (m % 10)] := by
    intro hc
    rcases List.mem_cons.mp hc with e | e
    · exact digitChar_ne_colon hd3 e.symm
    · rcases List.mem_cons.mp e with e2 | e2
      · exact digitChar_ne_colon hd4 e2.symm
      · cases e2
  have hdec : (fmtTime h m).data =
      [digitChar (h / 10), digitChar (h % 10)] ++ ':' ::
        [digitChar (m / 10), digitChar (m % 10)] := by
    rw [fmtTime_data]
    rfl
  have hsplit : splitColon (fmtTime h m).data =
      [[digitChar (h / 10), digitChar (h % 10)],
       [digitChar (m / 10), digitChar (m % 10)]] :=
    (splitColon_two _ _ _).mpr ⟨hdec, hnc1, hnc2⟩
  have hp1 := parseInt_two_digits hd1 hd2
  have hp2 := parseInt_two_digits hd3 hd4
  have hv1 : 10 * (h / 10) + h % 10 = h := by omega
  have hv2 : 10 * (m / 10) + m % 10 = m := by omega
  rw [hv1] at hp1
  rw [hv2] at hp2
  have hone : time_to_minutes (fmtTime h m) =
      if 0 ≤ (h : Int) ∧ (h : Int) ≤ 23 ∧ 0 ≤ (m : Int) ∧ (m : Int) ≤ 59
      then (h : Int) * 60 + (m : Int) else 0 := by
    simp only [time_to_minutes, if_pos hin, hsplit, hp1, hp2]
  rw [hone, if_pos (by refine ⟨by omega, by omega, by omega, by omega⟩)]
  push_cast
  ring

/-- On zero-padded well-formed time strings, Python's lexicographic
`<=` agrees with the minute order. -/
theorem pyLe_fmtTime_iff (h1 m1 h2 m2 : Nat) (hh1 : h1 ≤ 23) (hm1 : m1 ≤ 59)
    (hh2 : h2 ≤ 23) (hm2 : m2 ≤ 59) :
    pyLe (fmtTime h1 m1) (fmtTime h2 m2) = true ↔
      h1 * 60 + m1 ≤ h2 * 60 + m2 := by
  have ha1 : h1 / 10 < 10 := by omega
  have ha2 : h1 % 10 < 10 := by omega
  have ha3 : m1 / 10 < 10 := by omega
  have ha4 : m1 % 10 < 10 := by omega
  have hb1 : h2 / 10 < 10 := by omega
  have hb2 : h2 % 10 < 10 := by omega
  have hb3 : m2 / 10 < 10 := by omega
  have hb4 : m2 % 10 < 10 := by omega
  rw [pyLe, fmtTime_data, fmtTime_data]
  rw [lexLe_cons_iff, lexLe_cons_iff, lexLe_cons_iff, lexLe_cons_iff,
    lexLe_cons_iff]
  rw [digitChar_lt_iff ha1 hb1, digitChar_eq_iff ha1 hb1,
    digitChar_lt_iff ha2 hb2, digitChar_eq_iff ha2 hb2,
    digitChar_lt_iff ha3 hb3, digitChar_eq_iff ha3 hb3,
    digitChar_lt_iff ha4 hb4, digitChar_eq_iff ha4 hb4]
  simp only [lt_irrefl, false_or, lexLe_nil, and_true, true_and]
  constructor
  · intro hcase
    rcases hcase with hc | ⟨e1, hc⟩
    · omega
    · rcases hc with hc | ⟨e2, hc⟩
      · omega
      · rcases hc with hc | ⟨e3, hc⟩
        · omega
        · rcases hc with hc | e4
          · omega
          · omega
  · intro hle
    by_cases c1 : h1 / 10 < h2 / 10
    · exact Or.inl c1
    · have e1 : h1 / 10 = h2 / 10 := by omega
      refine Or.inr ⟨e1, ?_⟩
      by_cases c2 : h1 % 10 < h2 % 10
      · exact Or.inl c2
      · have e2 : h1 % 10 = h2 % 10 := by omega
        refine Or.inr ⟨e2, ?_⟩
        by_cases c3 : m1 / 10 < m2 / 10
        · exact Or.inl c3
        · have e3 : m1 / 10 = m2 / 10 := by omega
          refine Or.inr ⟨e3, ?_⟩
          by_cases c4 : m1 % 10 < m2 % 10
          · exact Or.inl c4
          · have e4 : m1 % 10 = m2 % 10 := by omega
            exact Or.inr e4

/-- `pyLe` on well-formed zero-padded times is the decision procedure
for the minute comparison. -/
theorem pyLe_fmtTime_eq_decide (h1 m1 h2 m2 : Nat) (hh1 : h1 ≤ 23)
    (hm1 : m1 ≤ 59) (hh2 : h2 ≤ 23) (hm2 : m2 ≤ 59) :
    pyLe (fmtTime h1 m1) (fmtTime h2 m2) =
      decide (h1 * 60 + m1 ≤ h2 * 60 + m2) := by
  by_cases hq : h1 * 60 + m1 ≤ h2 * 60 + m2
  · rw [decide_eq_true hq,
      (pyLe_fmtTime_iff h1 m1 h2 m2 hh1 hm1 hh2 hm2).mpr hq]
  · rw [decide_eq_false hq, ← Bool.not_eq_true]
    exact fun hcon =>
      hq ((pyLe_fmtTime_iff h1 m1 h2 m2 hh1 hm1 hh2 hm2).mp hcon)

/-- C10. For every triple of zero-padded `"HH:MM"` time strings
with hour in 0–23, minute in 0–59 and start not later than end, the
chained lexicographic string comparison
`start <= current <= end` used by the status-board builder and the
recommendation engine (`pyLe`) returns the same truth value as
`algorithm.py`'s `is_time_between current start end`; hence under
these preconditions the two current-class computations agree. -/
theorem string_compare_refines_is_time_between
    (h1 m1 h2 m2 h3 m3 : Nat) (hh1 : h1 ≤ 23) (hm1 : m1 ≤ 59)
    (hh2 : h2 ≤ 23) (hm2 : m2 ≤ 59) (hh3 : h3 ≤ 23) (hm3 : m3 ≤ 59)
    (hse : pyLe (fmtTime h1 m1) (fmtTime h3 m3) = true) :
    (pyLe (fmtTime h1 m1) (fmtTime h2 m2)
      && pyLe (fmtTime h2 m2) (fmtTime h3 m3))
      = is_time_between (fmtTime h2 m2) (fmtTime h1 m1) (fmtTime h3 m3) := by
  have hs := time_to_minutes_fmt h1 m1 hh1 hm1
  have hc := time_to_minutes_fmt h2 m2 hh2 hm2
  have he := time_to_minutes_fmt h3 m3 hh3 hm3
  have hle13 : h1 * 60 + m1 ≤ h3 * 60 + m3 :=
    (pyLe_fmtTime_iff h1 m1 h3 m3 hh1 hm1 hh3 hm3).mp hse
  have hbranch : is_time_between (fmtTime h2 m2) (fmtTime h1 m1)
        (fmtTime h3 m3) =
      (decide (time_to_minutes (fmtTime h1 m1)
          ≤ time_to_minutes (fmtTime h2 m2))
        && decide (time_to_minutes (fmtTime h2 m2)
          ≤ time_to_minutes (fmtTime h3 m3))) := by
    simp only [is_time_between]
    rw [if_neg (by rw [hs, he]; push_cast; omega)]
  rw [hbranch, hs, hc, he,
    pyLe_fmtTime_eq_decide h1 m1 h2 m2 hh1 hm1 hh2 hm2,
    pyLe_fmtTime_eq_decide h2 m2 h3 m3 hh2 hm2 hh3 hm3]
  congr 1
  · rw [decide_eq_decide]
    push_cast
    omega
  · rw [decide_eq_decide]
    push_cast
    omega

/-- Witness for `string_compare_refines_is_time_between`: the interval
09:00–11:00 with current time 09:30. -/
theorem string_compare_refines_witness :
    pyLe (fmtTime 9 0) (fmtTime 11 0) = true ∧
    (pyLe (fmtTime 9 0) (fmtTime 9 30) && pyLe (fmtTime 9 30) (fmtTime 11 0))
      = is_time_between (fmtTime 9 30) (fmtTime 9 0) (fmtTime 11 0) :=
  ⟨by decide,
   string_compare_refines_is_time_between 9 0 9 30 11 0 (by decide)
     (by decide) (by decide) (by decide) (by decide) (by decide) (by decide)⟩

end HackCMU
